import Mathlib

/-!
Verification of the capsule-network core of `src/main.py`.

Tensors of shape `[n1, n2, ...]` are embedded as curried functions
`Fin n1 → Fin n2 → ... → ℝ`; floating-point arithmetic is modelled over the
real numbers.  A separate checked-division variant records where the source
would produce a non-finite value (NaN/Inf): an IEEE division whose
denominator is zero is modelled as `none`.
-/

namespace CapsNet

open Finset

/-- `F.relu`, elementwise. -/
def relu (x : ℝ) : ℝ := max x 0

/-- Squared Euclidean length of a capsule vector:
`vec.pow(2).sum(dim)` along the last axis (src/main.py line 15). -/
noncomputable def lensq {D : ℕ} (v : Fin D → ℝ) : ℝ := ∑ d, (v d) ^ 2

/-- Euclidean norm of a capsule vector: `vec.pow(2).sum(dim).sqrt()`. -/
noncomputable def vecNorm {D : ℕ} (v : Fin D → ℝ) : ℝ := Real.sqrt (lensq v)

/-- `squash` from src/main.py lines 14-18, acting on a `[n, m, D]` tensor:
each capsule vector `vec[i, j, :]` is scaled by
`lensq / (1 + lensq) / length` where `length = sqrt lensq`. -/
noncomputable def squash {n m D : ℕ} (vec : Fin n → Fin m → Fin D → ℝ) :
    Fin n → Fin m → Fin D → ℝ :=
  fun i j d =>
    vec i j d *
      (lensq (vec i j) / (1 + lensq (vec i j)) / Real.sqrt (lensq (vec i j)))

/-- IEEE-style checked division: a quotient with zero denominator is a
non-finite value (NaN or Inf), modelled as `none`. -/
noncomputable def fdiv (x y : ℝ) : Option ℝ :=
  if y = 0 then none else some (x / y)

/-- `squash` on a single capsule vector with the divisions of the source checked
as floating point performs them: `lensq / (1 + lensq) / length`, where a
zero denominator yields a non-finite scaling factor that propagates into
every component of the result. -/
noncomputable def squashCheckedVec {D : ℕ} (v : Fin D → ℝ) :
    Option (Fin D → ℝ) :=
  (fdiv (lensq v) (1 + lensq v)).bind fun a =>
    (fdiv a (Real.sqrt (lensq v))).map fun coef =>
      fun d => v d * coef

/-- `F.softmax(x, dim)` applied to one slice along the normalised axis. -/
noncomputable def softmax {O : ℕ} (x : Fin O → ℝ) (j : Fin O) : ℝ :=
  Real.exp (x j) / ∑ k, Real.exp (x k)

/-- `s = (c * u_hat).sum(dim=1)`: the coupling-weighted sum of the votes over
the input capsules (src/main.py lines 30 and 40, with the coupling already
broadcast to `[batch, input_caps, output_caps]`). -/
noncomputable def weightedSum {B I O D : ℕ} (c : Fin B → Fin I → Fin O → ℝ)
    (u_hat : Fin B → Fin I → Fin O → Fin D → ℝ) :
    Fin B → Fin O → Fin D → ℝ :=
  fun bi j d => ∑ i, c bi i j * u_hat bi i j d

/-- The output `v` computed before the routing loop (src/main.py lines 29-31):
`c = F.softmax(self.b, dim=1)` broadcast over the batch,
`s = (c.unsqueeze(2) * u_hat).sum(dim=1)`, `v = squash(s)`. -/
noncomputable def initialV {B I O D : ℕ} (b : Fin I → Fin O → ℝ)
    (u_hat : Fin B → Fin I → Fin O → Fin D → ℝ) :
    Fin B → Fin O → Fin D → ℝ :=
  squash (weightedSum (fun _ i j => softmax (b i) j) u_hat)

/-- The mutable locals of the routing loop: the per-batch logits `b_batch`
and the current output capsules `v`. -/
structure RoutingState (B I O D : ℕ) where
  b_batch : Fin B → Fin I → Fin O → ℝ
  v : Fin B → Fin O → Fin D → ℝ

/-- One iteration of the routing loop (src/main.py lines 35-41):
`b_batch = b_batch + (u_hat * v).sum(-1)`, then
`c = F.softmax(b_batch.view(-1, output_caps), dim=1)` reshaped back,
`s = (c * u_hat).sum(dim=1)`, `v = squash(s)`. -/
noncomputable def routingStep {B I O D : ℕ}
    (u_hat : Fin B → Fin I → Fin O → Fin D → ℝ)
    (st : RoutingState B I O D) : RoutingState B I O D :=
  let bb := fun bi i j => st.b_batch bi i j + ∑ d, u_hat bi i j d * st.v bi j d
  { b_batch := bb
    v := squash (weightedSum (fun bi i j => softmax (bb bi i) j) u_hat) }

/-- The loop state before the loop body has run `r` times, starting from
`b_batch = self.b.expand((batch_size, input_caps, output_caps))`
(src/main.py line 34) and the pre-loop output capsules. -/
noncomputable def stateAt {B I O D : ℕ} (b : Fin I → Fin O → ℝ)
    (u_hat : Fin B → Fin I → Fin O → Fin D → ℝ) (r : ℕ) :
    RoutingState B I O D :=
  (routingStep u_hat)^[r] ⟨fun _ i j => b i j, initialV b u_hat⟩

/-- `DynamicRouting.forward` (src/main.py lines 26-43): compute the initial
coupling, weighted sum and squash; if `n_iterations > 0`, expand `b` over the
batch and run the routing loop `n_iterations` times; return the final `v`. -/
noncomputable def DynamicRouting.forward {B I O D : ℕ}
    (b : Fin I → Fin O → ℝ) (n_iterations : ℕ)
    (u_hat : Fin B → Fin I → Fin O → Fin D → ℝ) :
    Fin B → Fin O → Fin D → ℝ :=
  if n_iterations > 0 then (stateAt b u_hat n_iterations).v
  else initialV b u_hat

/-- The coupling coefficients used by `DynamicRouting.forward` when it
computes the output capsules for the `r`-th time: at `r = 0` the softmax of
the stored logits `b` (src/main.py line 29), and inside the loop the softmax
of the updated per-batch logits (src/main.py line 39), which `routingStep`
stores in the `b_batch` field of `stateAt b u_hat r`. -/
noncomputable def couplingAt {B I O D : ℕ} (b : Fin I → Fin O → ℝ)
    (u_hat : Fin B → Fin I → Fin O → Fin D → ℝ) :
    ℕ → Fin B → Fin I → Fin O → ℝ
  | 0 => fun _ i j => softmax (b i) j
  | (r + 1) => fun bi i j => softmax ((stateAt b u_hat (r + 1)).b_batch bi i) j

/-- The routing procedure as the specification words it: initial coupling
`c = softmax(b)` along the output-capsule axis, weighted sum
`s_j = Σ_i c_ij · u_hat_ij`, `v = squash(s)`; then, for each round, add to
the running per-batch logits the dot product of the vote of each input with the
current output capsule vector, recompute the coupling as the softmax of the
updated logits, recompute the weighted sum and reapply squash.  The pair
holds the running per-batch logits and the current output capsules. -/
noncomputable def specRouting {B I O D : ℕ} (b : Fin I → Fin O → ℝ)
    (u_hat : Fin B → Fin I → Fin O → Fin D → ℝ) :
    ℕ → (Fin B → Fin I → Fin O → ℝ) × (Fin B → Fin O → Fin D → ℝ)
  | 0 =>
      (fun _ i j => b i j,
        squash (fun bi j d => ∑ i, softmax (b i) j * u_hat bi i j d))
  | (r + 1) =>
      let prev := specRouting b u_hat r
      let logits := fun bi i j =>
        prev.1 bi i j + ∑ d, u_hat bi i j d * prev.2 bi j d
      (logits,
        squash (fun bi j d => ∑ i, softmax (logits bi i) j * u_hat bi i j d))

/-- The stored state of a `DynamicRouting` module: the learned logit
parameter `self.b` and the configured `self.n_iterations`
(src/main.py lines 21-24). -/
structure DynamicRoutingMod (I O : ℕ) where
  n_iterations : ℕ
  b : Fin I → Fin O → ℝ

/-- The variables in scope during the routing loop when module state is
tracked explicitly: the module itself plus the locals `b_batch` and `v`. -/
structure RoutingVars (B I O D : ℕ) where
  mod : DynamicRoutingMod I O
  b_batch : Fin B → Fin I → Fin O → ℝ
  v : Fin B → Fin O → Fin D → ℝ

/-- One loop iteration with the module tracked: the body rebinds the locals
`b_batch` and `v` out of place and writes nothing to the module. -/
noncomputable def routingStepS {B I O D : ℕ}
    (u_hat : Fin B → Fin I → Fin O → Fin D → ℝ)
    (st : RoutingVars B I O D) : RoutingVars B I O D :=
  let bb := fun bi i j => st.b_batch bi i j + ∑ d, u_hat bi i j d * st.v bi j d
  { st with
      b_batch := bb
      v := squash (weightedSum (fun bi i j => softmax (bb bi i) j) u_hat) }

/-- `DynamicRouting.forward` with the module state threaded explicitly:
returns the output capsules together with the module as left by the call. -/
noncomputable def DynamicRouting.forwardS {B I O D : ℕ}
    (m : DynamicRoutingMod I O)
    (u_hat : Fin B → Fin I → Fin O → Fin D → ℝ) :
    (Fin B → Fin O → Fin D → ℝ) × DynamicRoutingMod I O :=
  let v := initialV m.b u_hat
  if m.n_iterations > 0 then
    let fin := (routingStepS u_hat)^[m.n_iterations]
      ⟨m, fun _ i j => m.b i j, v⟩
    (fin.v, fin.mod)
  else (v, m)

/-- The one-hot target mask built by
`t.scatter_(1, targets.data.view(-1, 1), 1)` (src/main.py lines 117-121). -/
def oneHot {B C : ℕ} (targets : Fin B → Fin C) : Fin B → Fin C → ℝ :=
  fun bi c => if c = targets bi then 1 else 0

/-- The per-entry margin penalties (src/main.py lines 123-124):
`targets * relu(m_plus - length)^2
 + lambda * (1 - targets) * relu(length - m_minus)^2`. -/
noncomputable def MarginLoss.losses {B C : ℕ} (m_plus m_minus lambda_ : ℝ)
    (length : Fin B → Fin C → ℝ) (targets : Fin B → Fin C) :
    Fin B → Fin C → ℝ :=
  fun bi c =>
    oneHot targets bi c * relu (m_plus - length bi c) ^ 2 +
      lambda_ * (1 - oneHot targets bi c) * relu (length bi c - m_minus) ^ 2

/-- `MarginLoss.forward` (src/main.py lines 116-125): the mean of the
per-entry penalties when `loss_sum` is true, else their sum. -/
noncomputable def MarginLoss.forward {B C : ℕ} (m_plus m_minus lambda_ : ℝ)
    (length : Fin B → Fin C → ℝ) (targets : Fin B → Fin C)
    (loss_sum : Bool) : ℝ :=
  if loss_sum then
    (∑ bi, ∑ c, MarginLoss.losses m_plus m_minus lambda_ length targets bi c) /
      ((B * C : ℕ) : ℝ)
  else ∑ bi, ∑ c, MarginLoss.losses m_plus m_minus lambda_ length targets bi c

/-- Output spatial size of `nn.Conv2d` with kernel `k`, stride `s`, no
padding and no dilation, on an input of size `n`. -/
def convOutputSize (n k s : ℕ) : ℕ := (n - k) / s + 1

/-- Number of capsules produced by `FirstCapsuleLayer.forward`
(src/main.py lines 54-63): after `view(N, output_caps, output_dim, H, W)`,
`permute(0, 1, 3, 4, 2)` and `view(N, -1, output_dim)`, the capsule index
ranges over `output_caps * H * W` values. -/
def FirstCapsuleLayer.numCapsules (output_caps H W : ℕ) : ℕ :=
  output_caps * H * W

/-- `self.num_firstCaps = 32 * 6 * 6` (src/main.py line 98). -/
def CapsuleNet.num_firstCaps : ℕ := 32 * 6 * 6

/-- `probs = x.pow(2).sum(dim=2).sqrt()` (src/main.py line 107): the
per-class probability from the output capsule tensor. -/
noncomputable def CapsuleNet.probs {B C D : ℕ}
    (x : Fin B → Fin C → Fin D → ℝ) : Fin B → Fin C → ℝ :=
  fun bi c => Real.sqrt (∑ d, x bi c d ^ 2)

/-- Flat position of `(j, d)` when a trailing axis of size
`output_caps * output_dim` is viewed as `[output_caps, output_dim]`. -/
def flatIdx {O oD : ℕ} (j : Fin O) (d : Fin oD) : Fin (O * oD) :=
  ⟨j.1 * oD + d.1, by
    calc j.1 * oD + d.1 < j.1 * oD + oD := Nat.add_lt_add_left d.2 _
      _ = (j.1 + 1) * oD := (Nat.succ_mul _ _).symm
      _ ≤ O * oD := Nat.mul_le_mul_right _ j.2⟩

/-- `CapsLayer.forward` (src/main.py lines 80-85): the votes
`u_hat = x.unsqueeze(2).matmul(self.weights)` viewed as
`[batch, input_caps, output_caps, output_dim]`, then the routing module. -/
noncomputable def CapsLayer.forward {B I iD O oD : ℕ}
    (weights : Fin I → Fin iD → Fin (O * oD) → ℝ)
    (b : Fin I → Fin O → ℝ) (n_iterations : ℕ)
    (x : Fin B → Fin I → Fin iD → ℝ) : Fin B → Fin O → Fin oD → ℝ :=
  DynamicRouting.forward b n_iterations
    (fun bi i j d => ∑ k, x bi i k * weights i k (flatIdx j d))

/-- A concrete all-zero logit tensor for a 1-input-capsule,
2-output-capsule routing module, used to instantiate universally
quantified statements. -/
def b0 : Fin 1 → Fin 2 → ℝ := fun _ _ => 0

/-- A concrete all-zero votes tensor of shape `[1, 1, 2, 1]`. -/
def u0 : Fin 1 → Fin 1 → Fin 2 → Fin 1 → ℝ := fun _ _ _ _ => 0

/-- A concrete `[1, 1, 2]` capsule tensor whose single capsule is the
all-ones vector. -/
def ones112 : Fin 1 → Fin 1 → Fin 2 → ℝ := fun _ _ _ => 1

/-- A concrete `[1, 2]` length tensor with entries `9/10` and `1/10`. -/
noncomputable def len0 : Fin 1 → Fin 2 → ℝ :=
  fun _ c => if c = 0 then 9 / 10 else 1 / 10

/-- A concrete target vector selecting class `0` for the single batch row. -/
def tgt0 : Fin 1 → Fin 2 := fun _ => 0

theorem lensq_nonneg {D : ℕ} (v : Fin D → ℝ) : 0 ≤ lensq v :=
  Finset.sum_nonneg fun _ _ => sq_nonneg _

theorem lensq_pos {D : ℕ} {v : Fin D → ℝ} (h : v ≠ 0) : 0 < lensq v := by
  obtain ⟨d, hd⟩ := Function.ne_iff.mp h
  refine Finset.sum_pos' (fun e _ => sq_nonneg _) ⟨d, Finset.mem_univ d, ?_⟩
  exact lt_of_le_of_ne (sq_nonneg _) (Ne.symm (pow_ne_zero 2 hd))

theorem vecNorm_mul_const {D : ℕ} (v : Fin D → ℝ) (a : ℝ) :
    vecNorm (fun d => v d * a) = vecNorm v * |a| := by
  unfold vecNorm lensq
  have h : ∑ d, (v d * a) ^ 2 = (∑ d, (v d) ^ 2) * a ^ 2 := by
    rw [Finset.sum_mul]
    exact Finset.sum_congr rfl fun d _ => mul_pow _ _ _
  rw [h, Real.sqrt_mul (Finset.sum_nonneg fun _ _ => sq_nonneg _),
    Real.sqrt_sq_eq_abs]

theorem vecNorm_eq_sqrt_lensq {D : ℕ} (v : Fin D → ℝ) :
    vecNorm v = Real.sqrt (lensq v) := rfl

/-- C3: on the `[1, 1, 2]` all-zero capsule tensor, the `squash` of the source
performs the unguarded division `lensq / (1 + lensq) / length` with
`length = 0`, so every capsule of the result is a non-finite (NaN) value:
the checked evaluation returns `none` instead of a (near-)zero vector. -/
theorem squash_zero_not_finite :
    (fun i j => squashCheckedVec ((fun _ _ _ => (0 : ℝ) :
        Fin 1 → Fin 1 → Fin 2 → ℝ) i j)) = fun _ _ => none := by
  funext i j
  have h : lensq (fun _ : Fin 2 => (0 : ℝ)) = 0 := by
    simp [lensq]
  simp [squashCheckedVec, fdiv, h]

theorem squash_capsule_norm {n m D : ℕ} (vec : Fin n → Fin m → Fin D → ℝ)
    (i : Fin n) (j : Fin m) (h : vec i j ≠ 0) :
    vecNorm (squash vec i j) = lensq (vec i j) / (1 + lensq (vec i j)) := by
  have hs : 0 < lensq (vec i j) := lensq_pos h
  have hsq : 0 < Real.sqrt (lensq (vec i j)) := Real.sqrt_pos.mpr hs
  have hcoef : 0 ≤ lensq (vec i j) / (1 + lensq (vec i j)) /
      Real.sqrt (lensq (vec i j)) :=
    div_nonneg (div_nonneg hs.le (by linarith)) hsq.le
  have h1 : vecNorm (squash vec i j) = vecNorm (vec i j) *
      |lensq (vec i j) / (1 + lensq (vec i j)) /
        Real.sqrt (lensq (vec i j))| :=
    vecNorm_mul_const (vec i j) _
  rw [h1, abs_of_nonneg hcoef, vecNorm_eq_sqrt_lensq, mul_comm,
    div_mul_cancel₀]
  exact ne_of_gt hsq

/-- C4: for a capsule of nonzero (hence finite over ℝ) norm, `squash`
returns a same-shape tensor whose capsule equals
`v · (s / (1 + s) / sqrt s)` with `s` the squared norm, and the Euclidean
norm of the result lies in `[0, 1)`. -/
theorem squash_formula_and_range {n m D : ℕ}
    (vec : Fin n → Fin m → Fin D → ℝ) (i : Fin n) (j : Fin m)
    (h : vec i j ≠ 0) :
    (∀ d, squash vec i j d =
        vec i j d * (lensq (vec i j) / (1 + lensq (vec i j)) /
          Real.sqrt (lensq (vec i j)))) ∧
    0 ≤ vecNorm (squash vec i j) ∧ vecNorm (squash vec i j) < 1 := by
  have hs : 0 < lensq (vec i j) := lensq_pos h
  have hnorm := squash_capsule_norm vec i j h
  refine ⟨fun d => rfl, ?_, ?_⟩
  · rw [hnorm]
    exact div_nonneg hs.le (by linarith)
  · rw [hnorm]
    exact (div_lt_one (by linarith)).mpr (by linarith)

theorem squash_formula_and_range_witness :
    (ones112 0 0 ≠ 0) ∧
    ((∀ d, squash ones112 0 0 d =
        ones112 0 0 d * (lensq (ones112 0 0) / (1 + lensq (ones112 0 0)) /
          Real.sqrt (lensq (ones112 0 0)))) ∧
      0 ≤ vecNorm (squash ones112 0 0) ∧ vecNorm (squash ones112 0 0) < 1) :=
  have hne : ones112 0 0 ≠ 0 := fun hh => one_ne_zero (congrFun hh 0)
  ⟨hne, squash_formula_and_range ones112 0 0 hne⟩

/-- C5: `squash` preserves direction: each nonzero capsule is mapped to a
positive scalar multiple of itself. -/
theorem squash_preserves_direction {n m D : ℕ}
    (vec : Fin n → Fin m → Fin D → ℝ) (i : Fin n) (j : Fin m)
    (h : vec i j ≠ 0) :
    ∃ a : ℝ, 0 < a ∧ ∀ d, squash vec i j d = a * vec i j d := by
  have hs : 0 < lensq (vec i j) := lensq_pos h
  exact ⟨lensq (vec i j) / (1 + lensq (vec i j)) /
      Real.sqrt (lensq (vec i j)),
    div_pos (div_pos hs (by linarith)) (Real.sqrt_pos.mpr hs),
    fun d => mul_comm _ _⟩

theorem squash_preserves_direction_witness :
    (ones112 0 0 ≠ 0) ∧
    ∃ a : ℝ, 0 < a ∧ ∀ d, squash ones112 0 0 d = a * ones112 0 0 d :=
  have hne : ones112 0 0 ≠ 0 := fun hh => one_ne_zero (congrFun hh 0)
  ⟨hne, squash_preserves_direction ones112 0 0 hne⟩

theorem softmax_nonneg {O : ℕ} (x : Fin O → ℝ) (j : Fin O) :
    0 ≤ softmax x j :=
  div_nonneg (Real.exp_pos _).le
    (Finset.sum_nonneg fun _ _ => (Real.exp_pos _).le)

theorem softmax_sum_one {O : ℕ} (hO : 0 < O) (x : Fin O → ℝ) :
    ∑ j, softmax x j = 1 := by
  have hpos : 0 < ∑ k, Real.exp (x k) :=
    Finset.sum_pos (fun k _ => Real.exp_pos _) ⟨⟨0, hO⟩, Finset.mem_univ _⟩
  unfold softmax
  rw [← Finset.sum_div, div_self (ne_of_gt hpos)]

theorem stateAt_succ {B I O D : ℕ} (b : Fin I → Fin O → ℝ)
    (u_hat : Fin B → Fin I → Fin O → Fin D → ℝ) (r : ℕ) :
    stateAt b u_hat (r + 1) = routingStep u_hat (stateAt b u_hat r) :=
  Function.iterate_succ_apply' _ _ _

theorem stateAt_eq_spec {B I O D : ℕ} (b : Fin I → Fin O → ℝ)
    (u_hat : Fin B → Fin I → Fin O → Fin D → ℝ) (r : ℕ) :
    (stateAt b u_hat r).b_batch = (specRouting b u_hat r).1 ∧
    (stateAt b u_hat r).v = (specRouting b u_hat r).2 := by
  induction r with
  | zero => exact ⟨rfl, rfl⟩
  | succ r ih =>
    obtain ⟨hb, hv⟩ := ih
    constructor
    · rw [stateAt_succ]
      show (fun bi i j => (stateAt b u_hat r).b_batch bi i j +
          ∑ d, u_hat bi i j d * (stateAt b u_hat r).v bi j d) = _
      rw [hb, hv]
      rfl
    · rw [stateAt_succ]
      show squash (weightedSum (fun bi i j => softmax
          (fun j => (stateAt b u_hat r).b_batch bi i j +
            ∑ d, u_hat bi i j d * (stateAt b u_hat r).v bi j d) j)
          u_hat) = _
      rw [hb, hv]
      rfl

/-- C1: for every votes tensor and every `n_iterations > 0`,
`DynamicRouting.forward` computes exactly the procedure the specification
describes: initial softmax coupling, weighted sum and squash, then
`n_iterations` rounds of agreement update, softmax, weighted sum and
squash, returning the final `v`. -/
theorem routing_matches_spec {B I O D : ℕ} (b : Fin I → Fin O → ℝ)
    (n : ℕ) (u_hat : Fin B → Fin I → Fin O → Fin D → ℝ) (h : 0 < n) :
    DynamicRouting.forward b n u_hat = (specRouting b u_hat n).2 := by
  unfold DynamicRouting.forward
  rw [if_pos h]
  exact (stateAt_eq_spec b u_hat n).2

theorem routing_matches_spec_witness :
    0 < 1 ∧ DynamicRouting.forward b0 1 u0 = (specRouting b0 u0 1).2 :=
  ⟨Nat.one_pos, routing_matches_spec b0 1 u0 Nat.one_pos⟩

/-- C2: at every routing round (the initial one included) the coupling
coefficients actually used by the routing computation are softmaxes of the
current logits, and for every input capsule they are non-negative and sum
to 1, for every logits parameter (the all-zero one included). -/
theorem routing_coupling_prob_dist {B I O D : ℕ} (hO : 0 < O)
    (b : Fin I → Fin O → ℝ)
    (u_hat : Fin B → Fin I → Fin O → Fin D → ℝ) :
    (∀ r, (stateAt b u_hat r).v =
        squash (weightedSum (couplingAt b u_hat r) u_hat)) ∧
    (∀ r bi i, (∀ j, 0 ≤ couplingAt b u_hat r bi i j) ∧
        ∑ j, couplingAt b u_hat r bi i j = 1) := by
  constructor
  · intro r
    cases r with
    | zero => rfl
    | succ k =>
      show (stateAt b u_hat (k + 1)).v = squash (weightedSum
          (fun bi i j => softmax ((stateAt b u_hat (k + 1)).b_batch bi i) j)
          u_hat)
      rw [stateAt_succ]
      exact rfl
  · intro r bi i
    cases r with
    | zero => exact ⟨fun j => softmax_nonneg _ j, softmax_sum_one hO _⟩
    | succ k => exact ⟨fun j => softmax_nonneg _ j, softmax_sum_one hO _⟩

theorem routing_coupling_prob_dist_witness :
    (0 < 2) ∧
    ((∀ r, (stateAt b0 u0 r).v =
        squash (weightedSum (couplingAt b0 u0 r) u0)) ∧
      (∀ r bi i, (∀ j, 0 ≤ couplingAt b0 u0 r bi i j) ∧
        ∑ j, couplingAt b0 u0 r bi i j = 1)) :=
  ⟨by decide, routing_coupling_prob_dist (by decide) b0 u0⟩

/-- C6: `DynamicRouting.forward` always applies the loop body exactly
`n_iterations` times — the count does not depend on the votes — and with
`n_iterations = 0` it returns the squash of the `softmax(b)`-weighted sum
of the votes. -/
theorem routing_iteration_count {B I O D : ℕ} (b : Fin I → Fin O → ℝ)
    (u_hat : Fin B → Fin I → Fin O → Fin D → ℝ) :
    (∀ n, DynamicRouting.forward b n u_hat = (stateAt b u_hat n).v) ∧
    DynamicRouting.forward b 0 u_hat =
      squash (weightedSum (fun _ i j => softmax (b i) j) u_hat) := by
  constructor
  · intro n
    cases n with
    | zero => rfl
    | succ k => simp [DynamicRouting.forward]
  · rfl

/-- C9: the routing computation is a deterministic function of the logits,
the iteration count and the votes: equal votes give equal outputs. -/
theorem routing_deterministic {B I O D : ℕ} (b : Fin I → Fin O → ℝ)
    (n : ℕ) (u1 u2 : Fin B → Fin I → Fin O → Fin D → ℝ) (h : u1 = u2) :
    DynamicRouting.forward b n u1 = DynamicRouting.forward b n u2 := by
  rw [h]

theorem routing_deterministic_witness :
    u0 = u0 ∧
    DynamicRouting.forward b0 3 u0 = DynamicRouting.forward b0 3 u0 :=
  ⟨rfl, routing_deterministic b0 3 u0 u0 rfl⟩

theorem iterate_routingStepS_mod {B I O D : ℕ}
    (u_hat : Fin B → Fin I → Fin O → Fin D → ℝ) (k : ℕ)
    (st : RoutingVars B I O D) :
    ((routingStepS u_hat)^[k] st).mod = st.mod := by
  induction k generalizing st with
  | zero => rfl
  | succ r ih =>
    rw [Function.iterate_succ_apply]
    exact ih (routingStepS u_hat st)

theorem iterate_routingStepS_proj {B I O D : ℕ}
    (u_hat : Fin B → Fin I → Fin O → Fin D → ℝ) (k : ℕ)
    (st : RoutingVars B I O D) :
    RoutingState.mk ((routingStepS u_hat)^[k] st).b_batch
        ((routingStepS u_hat)^[k] st).v =
      (routingStep u_hat)^[k] ⟨st.b_batch, st.v⟩ := by
  induction k generalizing st with
  | zero => rfl
  | succ r ih =>
    rw [Function.iterate_succ_apply, Function.iterate_succ_apply]
    exact ih (routingStepS u_hat st)

/-- C10: a call of `DynamicRouting.forward` computes the same output as the
state-threaded version and leaves the stored parameter `b` unchanged: the
loop only rebinds the per-batch working copy `b_batch`. -/
theorem forwardS_preserves_b {B I O D : ℕ} (m : DynamicRoutingMod I O)
    (u_hat : Fin B → Fin I → Fin O → Fin D → ℝ) :
    (DynamicRouting.forwardS m u_hat).1 =
      DynamicRouting.forward m.b m.n_iterations u_hat ∧
    (DynamicRouting.forwardS m u_hat).2.b = m.b := by
  constructor
  · unfold DynamicRouting.forwardS DynamicRouting.forward
    by_cases hn : m.n_iterations > 0
    · simp only [if_pos hn]
      exact congrArg RoutingState.v (iterate_routingStepS_proj u_hat
        m.n_iterations ⟨m, fun _ i j => m.b i j, initialV m.b u_hat⟩)
    · simp only [if_neg hn]
  · by_cases hn : m.n_iterations > 0 <;>
      simp [DynamicRouting.forwardS, hn, iterate_routingStepS_mod]

/-- C7: `MarginLoss` charges each entry `max(0, m_plus − length)²` on the
target class and `lambda · max(0, length − m_minus)²` elsewhere, returns
the mean of the entries when the flag is set and their sum otherwise, and
the penalties vanish on the margin boundaries. -/
theorem marginLoss_correct {B C : ℕ} (m_plus m_minus lambda_ : ℝ)
    (length : Fin B → Fin C → ℝ) (targets : Fin B → Fin C) :
    (∀ bi c, MarginLoss.losses m_plus m_minus lambda_ length targets bi c =
        if c = targets bi then max 0 (m_plus - length bi c) ^ 2
        else lambda_ * max 0 (length bi c - m_minus) ^ 2) ∧
    (MarginLoss.forward m_plus m_minus lambda_ length targets true =
        (∑ bi, ∑ c,
          MarginLoss.losses m_plus m_minus lambda_ length targets bi c) /
          ((B * C : ℕ) : ℝ)) ∧
    (MarginLoss.forward m_plus m_minus lambda_ length targets false =
        ∑ bi, ∑ c,
          MarginLoss.losses m_plus m_minus lambda_ length targets bi c) ∧
    (∀ bi c, c = targets bi → length bi c = m_plus →
        MarginLoss.losses m_plus m_minus lambda_ length targets bi c = 0) ∧
    (∀ bi c, c ≠ targets bi → length bi c = m_minus →
        MarginLoss.losses m_plus m_minus lambda_ length targets bi c = 0) := by
  have hentry : ∀ bi c,
      MarginLoss.losses m_plus m_minus lambda_ length targets bi c =
        if c = targets bi then max 0 (m_plus - length bi c) ^ 2
        else lambda_ * max 0 (length bi c - m_minus) ^ 2 := by
    intro bi c
    unfold MarginLoss.losses oneHot relu
    by_cases hc : c = targets bi
    · simp only [if_pos hc]
      rw [max_comm (m_plus - length bi c) 0]
      ring
    · simp only [if_neg hc]
      rw [max_comm (length bi c - m_minus) 0]
      ring
  refine ⟨hentry, rfl, rfl, ?_, ?_⟩
  · intro bi c hc hl
    rw [hentry bi c, if_pos hc, hl, sub_self]
    simp
  · intro bi c hc hl
    rw [hentry bi c, if_neg hc, hl, sub_self]
    simp

theorem marginLoss_correct_witness :
    (∀ bi c, MarginLoss.losses ((9 : ℝ) / 10) (1 / 10) (1 / 2)
        len0 tgt0 bi c =
        if c = tgt0 bi then max 0 ((9 : ℝ) / 10 - len0 bi c) ^ 2
        else (1 / 2 : ℝ) * max 0 (len0 bi c - 1 / 10) ^ 2) ∧
    (MarginLoss.forward ((9 : ℝ) / 10) (1 / 10) (1 / 2) len0 tgt0 true =
        (∑ bi, ∑ c, MarginLoss.losses ((9 : ℝ) / 10) (1 / 10) (1 / 2)
          len0 tgt0 bi c) / ((1 * 2 : ℕ) : ℝ)) ∧
    (MarginLoss.forward ((9 : ℝ) / 10) (1 / 10) (1 / 2) len0 tgt0 false =
        ∑ bi, ∑ c, MarginLoss.losses ((9 : ℝ) / 10) (1 / 10) (1 / 2)
          len0 tgt0 bi c) ∧
    (∀ bi c, c = tgt0 bi → len0 bi c = (9 : ℝ) / 10 →
        MarginLoss.losses ((9 : ℝ) / 10) (1 / 10) (1 / 2)
          len0 tgt0 bi c = 0) ∧
    (∀ bi c, c ≠ tgt0 bi → len0 bi c = (1 : ℝ) / 10 →
        MarginLoss.losses ((9 : ℝ) / 10) (1 / 10) (1 / 2)
          len0 tgt0 bi c = 0) :=
  marginLoss_correct ((9 : ℝ) / 10) (1 / 10) (1 / 2) len0 tgt0

/-- C8: the first 9×9 stride-1 convolution on a 28×28 input yields 20×20;
the primary capsule layer (kernel 9, stride 2) yields 6×6, so
`32 * 6 * 6 = 1152` primary capsules of dimension 8, as hard-coded in
`CapsuleNet`; the capsule layer accepts exactly the `[batch, 1152, 8]`
shape and routes votes to `[batch, 10, 16]` output capsules; and the
per-class probability is the Euclidean norm of the capsule of that class. -/
theorem capsnet_shape_contract :
    convOutputSize 28 9 1 = 20 ∧
    convOutputSize 20 9 2 = 6 ∧
    FirstCapsuleLayer.numCapsules 32 (convOutputSize 20 9 2)
      (convOutputSize 20 9 2) = 1152 ∧
    CapsuleNet.num_firstCaps = 1152 ∧
    (∀ (B : ℕ) (x : Fin B → Fin 10 → Fin 16 → ℝ) (bi : Fin B) (c : Fin 10),
        CapsuleNet.probs x bi c = vecNorm (x bi c)) ∧
    (∀ (B n : ℕ) (weights : Fin 1152 → Fin 8 → Fin (10 * 16) → ℝ)
        (b : Fin 1152 → Fin 10 → ℝ) (x : Fin B → Fin 1152 → Fin 8 → ℝ),
        CapsLayer.forward weights b n x = DynamicRouting.forward b n
          (fun bi i j d => ∑ k, x bi i k * weights i k (flatIdx j d))) :=
  ⟨rfl, rfl, rfl, rfl, fun _ _ _ _ => rfl, fun _ _ _ _ _ => rfl⟩

end CapsNet
